import Mathlib

/-!
Verification of the generic spatial-partitioning tree (quadtree for D = 2,
octree for D = 3) implemented in `octree.h` of the repository.

The embedding is a direct translation of the C++ template
`Octree<PosType, DataType, DIM>`:

* coordinates are exact rationals (`Pos D = Fin D → ℚ`), mirroring the
  componentwise arithmetic the code performs on its coordinate vectors;
* a `Node` stores a center, a data payload, a depth, and a list of `2 ^ D`
  optional children (a `none` entry models a null child pointer);
* `Boundary` stores the `min`/`max` corners with the derived `size`,
  `center` and the inclusive membership test `is_in`;
* the recursive member function `insert(Node*, pos, data)` is modelled by
  `insert_node` with an explicit fuel argument counting the remaining
  allowed recursion depth: the C++ recursion is not structurally bounded
  (with `max_depth = 0` it never reaches its stopping guard), so a result
  `none` means the recursion did not terminate within the given fuel, and
  termination of the C++ call is the proposition that some fuel suffices;
* `find`, `find_boundary` and the pre-order traversal behind `visual` are
  translated as the total structural recursions they are in C++.
-/



set_option maxHeartbeats 1000000



/-- Coordinate vector with `D` exact rational components, modelling the
`PosType` template parameter (an Eigen vector in the demo program). -/
abbrev Pos (D : ℕ) : Type := Fin D → ℚ

/-- The `Boundary` record of `octree.h`: an axis-aligned box given by its
minimum and maximum corners. -/
structure Boundary (D : ℕ) where
  min : Pos D
  max : Pos D

/-- Boundary size, `max - min` componentwise (`Boundary::size`). -/
def Boundary.size {D : ℕ} (b : Boundary D) : Pos D := fun i => b.max i - b.min i

/-- Boundary center, `(max + min) / 2` componentwise (`Boundary::center`). -/
def Boundary.center {D : ℕ} (b : Boundary D) : Pos D := fun i => (b.max i + b.min i) / 2

/-- Inclusive membership test (`Boundary::is_in`): the C++ loop returns
`false` iff some axis has `pos[i] < min[i] || pos[i] > max[i]`. -/
def Boundary.is_in {D : ℕ} (b : Boundary D) (pos : Pos D) : Bool :=
  decide (∀ i : Fin D, ¬ (pos i < b.min i ∨ b.max i < pos i))

/-- The `Node` record: center, accumulated data, depth, and `2 ^ D` child
slots, each either absent (null pointer) or holding a child node. -/
inductive Node (D : ℕ) (α : Type) : Type where
  | mk (center : Pos D) (data : α) (depth : ℕ) (childs : List (Option (Node D α)))

/-- Center field of a node. -/
def Node.center {D : ℕ} {α : Type} : Node D α → Pos D
  | .mk c _ _ _ => c

/-- Data field of a node. -/
def Node.data {D : ℕ} {α : Type} : Node D α → α
  | .mk _ d _ _ => d

/-- Depth field of a node. -/
def Node.depth {D : ℕ} {α : Type} : Node D α → ℕ
  | .mk _ _ k _ => k

/-- Child slot list of a node. -/
def Node.childs {D : ℕ} {α : Type} : Node D α → List (Option (Node D α))
  | .mk _ _ _ cs => cs

/-- Child pointer at slot `j` (`node->childs[j]`); out-of-range reads model
as null, which never occurs on slots produced by `find_index`. -/
def Node.child {D : ℕ} {α : Type} (n : Node D α) (j : ℕ) : Option (Node D α) :=
  n.childs.getD j none

/-- Little-endian binary value of a bit list; `bitsToNat [b0, …, bk]` is the
number whose bit `i` is `bi`, i.e. the result of the C++ accumulation
`index |= (1 << i)` over exactly the set bits. -/
def bitsToNat : List Bool → ℕ
  | [] => 0
  | b :: bs => (if b then 1 else 0) + 2 * bitsToNat bs

/-- Quadrant/octant index of `pos` relative to a cell center `c`
(`Octree::find_index`): bit `i` is set iff `pos[i] > c[i]`. -/
def find_index_c {D : ℕ} (pos c : Pos D) : ℕ :=
  bitsToNat ((List.finRange D).map fun i => decide (c i < pos i))

/-- Source-shaped wrapper of `find_index_c` taking the node, as
`find_index(pos, node)` does. -/
def find_index {D : ℕ} {α : Type} (pos : Pos D) (node : Node D α) : ℕ :=
  find_index_c pos node.center

/-- Child-center computation (`Octree::find_center`): offset the parent
center by `boundary.size / 2^(depth+2)` toward `pos` on each axis. -/
def find_center {D : ℕ} {α : Type} (bs : Pos D) (pos : Pos D) (node : Node D α) : Pos D :=
  fun i =>
    if node.center i < pos i then node.center i + bs i / 2 ^ (node.depth + 2)
    else node.center i - bs i / 2 ^ (node.depth + 2)

/-- Center of the child cell selected by the slot index `j` of a node with
center `c` at the given depth: offset by `+half` on axis `i` iff bit `i` of
`j` is set.  This is `find_center` re-expressed through the bits of the
routing index. -/
def geom_center {D : ℕ} (bs c : Pos D) (depth j : ℕ) : Pos D :=
  fun i =>
    if j.testBit i then c i + bs i / 2 ^ (depth + 2) else c i - bs i / 2 ^ (depth + 2)

/-- The tree object: boundary and maximum depth fixed at construction, plus
the owned root node. -/
structure Octree (D : ℕ) (α : Type) where
  boundary : Boundary D
  max_depth : ℕ
  root : Node D α

/-- The public constructor `Octree(min, max, depth)`: stores the boundary
and `max_depth`, and creates a root at depth 0 centered at the boundary
center with default-initialized data `d0` and all-null children. -/
def Octree.make {D : ℕ} {α : Type} (pmin pmax : Pos D) (md : ℕ) (d0 : α) : Octree D α :=
  ⟨⟨pmin, pmax⟩, md, Node.mk (Boundary.center ⟨pmin, pmax⟩) d0 0 (List.replicate (2 ^ D) none)⟩

/-- Functional update of one child slot (`node->childs[index] = …`). -/
def Node.withChild {D : ℕ} {α : Type} (n : Node D α) (j : ℕ) (c : Node D α) : Node D α :=
  Node.mk n.center n.data n.depth (n.childs.set j (some c))

/-- The child node that one insertion step places in the routed slot
before recursing into it: a fresh node carrying the inserted data if the
slot was null (`new Node(find_center(pos, node), data, depth + 1)`), or the
existing child with its data aggregated (`update(old_data, data)`). -/
def ins_child {D : ℕ} {α : Type} (u : α → α → α) (bs : Pos D) (n : Node D α) (pos : Pos D)
    (v : α) : Node D α :=
  match n.child (find_index pos n) with
  | none => Node.mk (find_center bs pos n) v (n.depth + 1) (List.replicate (2 ^ D) none)
  | some c0 => Node.mk c0.center (u c0.data v) c0.depth c0.childs

/-- The recursive member `insert(Node*, pos, data)`.  The fuel argument
counts how many further recursive calls are allowed; the C++ recursion has
no structural bound (its only stop is the guard `depth + 1 == max_depth`),
so `none` models a call that did not terminate within `fuel` levels.  On
each step: stop at the guard; otherwise route by `find_index`, create or
update the child in the routed slot (`ins_child`), and recurse into it,
storing the recursion's result back into the slot. -/
def insert_node {D : ℕ} {α : Type} (u : α → α → α) (bs : Pos D) (md : ℕ) :
    ℕ → Node D α → Pos D → α → Option (Node D α)
  | 0, n, _, _ => if n.depth + 1 = md then some n else none
  | f + 1, n, pos, data =>
    if n.depth + 1 = md then some n
    else
      (insert_node u bs md f (ins_child u bs n pos data) pos data).map
        fun r => n.withChild (find_index pos n) r

/-- The public `insert(pos, data)`: silently rejects out-of-bounds
positions, otherwise runs the recursive insertion from the root.  The fuel
`max_depth` is sufficient whenever the C++ recursion terminates at all
(it descends one level per call and stops at depth `max_depth - 1`). -/
def Octree.insert {D : ℕ} {α : Type} (u : α → α → α) (t : Octree D α) (pos : Pos D)
    (data : α) : Octree D α :=
  if t.boundary.is_in pos then
    { t with root := (insert_node u t.boundary.size t.max_depth t.max_depth t.root pos data).getD t.root }
  else t

/-- A node strictly shrinks under `sizeOf` relative to a child list that
contains it; used for the structural termination of `find` and `traverse`. -/
def Node.sizeOf_lt_of_mem {D : ℕ} {α : Type} [SizeOf α] {c : Node D α}
    {cs : List (Option (Node D α))} (h : some c ∈ cs) : sizeOf c < sizeOf cs := by
  have h1 : sizeOf (some c) < sizeOf cs := List.sizeOf_lt_of_mem h
  have h2 : sizeOf (some c) = 1 + sizeOf c := by simp
  omega

/-- A child reached through `Node.child` is `sizeOf`-smaller than its
parent. -/
def Node.sizeOf_child {D : ℕ} {α : Type} [SizeOf α] {n : Node D α} {j : ℕ}
    {c : Node D α} (h : n.child j = some c) : sizeOf c < sizeOf n := by
  have hmem : some c ∈ n.childs := by
    unfold Node.child at h
    rw [List.getD_eq_getElem?_getD] at h
    cases hg : n.childs[j]? with
    | none => rw [hg] at h; simp at h
    | some x =>
      rw [hg] at h
      simp at h
      rw [h] at hg
      obtain ⟨hl, hx⟩ := List.getElem?_eq_some_iff.mp hg
      exact hx ▸ List.getElem_mem hl
  cases n with
  | mk c0 d k cs =>
    have h1 : sizeOf c < sizeOf cs := Node.sizeOf_lt_of_mem hmem
    simp [Node.mk.sizeOf_spec]
    omega

/-- The recursive member `find(Node*, pos, depth)`: return the node once
its depth matches, otherwise descend into the routed child if present, and
return the current node (deepest existing ancestor) if it is absent. -/
def find_node {D : ℕ} {α : Type} (pos : Pos D) (d : ℕ) (n : Node D α) : Node D α :=
  if n.depth = d then n
  else
    match h : n.child (find_index pos n) with
    | none => n
    | some c => find_node pos d c
termination_by sizeOf n
decreasing_by exact Node.sizeOf_child h

/-- The public `find(pos, depth)`. -/
def Octree.find_at {D : ℕ} {α : Type} (t : Octree D α) (pos : Pos D) (d : ℕ) : Node D α :=
  find_node pos d t.root

/-- The public `find(pos)`, which uses `max_depth` as the target depth. -/
def Octree.find {D : ℕ} {α : Type} (t : Octree D α) (pos : Pos D) : Node D α :=
  t.find_at pos t.max_depth

/-- The public `find_boundary(node, boundary)`: reconstruct the cell of a
node from its center and depth, with half-extent
`boundary.size / 2^(depth+1)`. -/
def Octree.find_boundary {D : ℕ} {α : Type} (t : Octree D α) (node : Node D α) : Boundary D :=
  ⟨fun i => node.center i - t.boundary.size i / 2 ^ (node.depth + 1),
   fun i => node.center i + t.boundary.size i / 2 ^ (node.depth + 1)⟩

mutual
/-- Pre-order traversal of a subtree (`Octree::traverse`): visit the node,
then the present children in slot order.  The list collects the visited
nodes in visit order; `visual` applies its callback to exactly this list. -/
def traverse_tree {D : ℕ} {α : Type} : Node D α → List (Node D α)
  | .mk c d k cs => Node.mk c d k cs :: traverse_childs cs
termination_by n => sizeOf n
decreasing_by all_goals (simp [Node.mk.sizeOf_spec]; try omega)

/-- Traversal of a child slot list in order, skipping null slots. -/
def traverse_childs {D : ℕ} {α : Type} : List (Option (Node D α)) → List (Node D α)
  | [] => []
  | none :: rest => traverse_childs rest
  | some c :: rest => traverse_tree c ++ traverse_childs rest
termination_by cs => sizeOf cs
decreasing_by all_goals (simp; try omega)
end

/-- The public `visual(func)`: the callback is invoked on each node of the
pre-order traversal; we model the call by the list of visited nodes. -/
def Octree.visual {D : ℕ} {α : Type} (t : Octree D α) : List (Node D α) :=
  traverse_tree t.root

/-- Reachability of a node from another by following child pointers: the
set of nodes a traversal from `n` can visit. -/
inductive Reach {D : ℕ} {α : Type} : Node D α → Node D α → Prop where
  | refl (n : Node D α) : Reach n n
  | step {n c m : Node D α} (j : ℕ) (hc : n.child j = some c) (h : Reach c m) : Reach n m

/-- The node reached from `n` after `k` steps of quadrant-index descent for
`pos` (the spine that `insert` and `find` walk). -/
def path_node {D : ℕ} {α : Type} (pos : Pos D) : ℕ → Node D α → Option (Node D α)
  | 0, n => some n
  | k + 1, n => (n.child (find_index pos n)).bind (path_node pos k)

/-- The default aggregation `update(old_data, new_data) = new_data + old_data`
of the source, at the `double`-instantiated data type of the demo. -/
def qupdate (old_data new_data : ℚ) : ℚ := new_data + old_data

/-- Building a tree: construct with the given boundary corners, maximum
depth and default data, then perform the listed insertions in order. -/
def build {D : ℕ} {α : Type} (u : α → α → α) (pmin pmax : Pos D) (md : ℕ) (d0 : α)
    (l : List (Pos D × α)) : Octree D α :=
  l.foldl (fun t pv => t.insert u pv.1 pv.2) (Octree.make pmin pmax md d0)

/-- The sub-cell a child created at slot `j` of a node with center `c` and
the given depth would own: centered at `geom_center` with half-extent
`bs / 2^(depth+2)`. -/
def sub_region {D : ℕ} (bs c : Pos D) (depth j : ℕ) : Boundary D :=
  ⟨fun i => geom_center bs c depth j i - bs i / 2 ^ (depth + 2),
   fun i => geom_center bs c depth j i + bs i / 2 ^ (depth + 2)⟩

/-- Strict (interior) membership in a boundary box, used to state that
sibling sub-cells overlap at most on their shared faces. -/
def Boundary.strict_in {D : ℕ} (b : Boundary D) (pos : Pos D) : Prop :=
  ∀ i : Fin D, b.min i < pos i ∧ pos i < b.max i

/-- Structural well-formedness of a subtree, true of every tree the public
API can produce: child lists have exactly `2 ^ D` slots, nodes at the depth
limit have no children, and every present child sits one level deeper with
the center of the sub-cell its slot index selects. -/
inductive WF {D : ℕ} {α : Type} (bs : Pos D) (md : ℕ) : Node D α → Prop where
  | intro (n : Node D α)
      (hlen : n.childs.length = 2 ^ D)
      (hleaf : md ≤ n.depth + 1 → ∀ j, n.child j = none)
      (hdep : ∀ j c, n.child j = some c → c.depth = n.depth + 1)
      (hcen : ∀ j c, n.child j = some c → c.center = geom_center bs n.center n.depth j)
      (hch : ∀ j c, n.child j = some c → WF bs md c) :
      WF bs md n

/-- Geometric center of the node at level `k` on the descent path of `pos`
in a tree with boundary size `bs` and root center `c0`: each level applies
the child-center offset selected by the routing index at the current
center.  This is determined by the geometry alone, before any insertion. -/
def pcenter {D : ℕ} (bs c0 pos : Pos D) : ℕ → Pos D
  | 0 => c0
  | k + 1 => geom_center bs (pcenter bs c0 pos k) k (find_index_c pos (pcenter bs c0 pos k))

/-- The descent spine of `p0` below the root, with every level down to the
depth limit present, aligned with the geometric path centers, and carrying
the accumulated data `s`. -/
def spine_full {D : ℕ} (bs c0 p0 : Pos D) (md : ℕ) (root : Node D ℚ) (s : ℚ) : Prop :=
  ∀ k, 1 ≤ k → k + 1 ≤ md → ∃ m, path_node p0 k root = some m ∧ m.depth = k ∧
    m.center = pcenter bs c0 p0 k ∧ m.childs.length = 2 ^ D ∧ m.data = s

def cZero : Pos 2 := fun _ => 0

def cHundred : Pos 2 := fun _ => 100

def cP25 : Pos 2 := fun _ => 25

def cP150 : Pos 2 := fun _ => 150

def cP50 : Pos 2 := fun _ => 50

def cNode : Node 2 ℚ := Node.mk (fun _ => 50) 0 0 (List.replicate (2 ^ 2) none)

def c1_list : List (Pos 2 × ℚ) := [(cP25, 1), (cP25, 2)]

def c3_tree : Octree 2 ℚ := build qupdate cZero cHundred 2 0 [(cP25, 1)]

@[simp] theorem Node.center_mk {D : ℕ} {α : Type} (c : Pos D) (d : α) (k : ℕ)
    (cs : List (Option (Node D α))) : (Node.mk c d k cs).center = c := rfl

@[simp] theorem Node.data_mk {D : ℕ} {α : Type} (c : Pos D) (d : α) (k : ℕ)
    (cs : List (Option (Node D α))) : (Node.mk c d k cs).data = d := rfl

@[simp] theorem Node.depth_mk {D : ℕ} {α : Type} (c : Pos D) (d : α) (k : ℕ)
    (cs : List (Option (Node D α))) : (Node.mk c d k cs).depth = k := rfl

@[simp] theorem Node.childs_mk {D : ℕ} {α : Type} (c : Pos D) (d : α) (k : ℕ)
    (cs : List (Option (Node D α))) : (Node.mk c d k cs).childs = cs := rfl

/-- Unfolding equation of `traverse_tree` in terms of the projections. -/
theorem traverse_tree_eq {D : ℕ} {α : Type} (n : Node D α) :
    traverse_tree n = n :: traverse_childs n.childs := by
  cases n with
  | mk c d k cs => rw [traverse_tree]; rfl

/-- The value of a bit list is below `2 ^ length`. -/
theorem bitsToNat_lt_two_pow (l : List Bool) : bitsToNat l < 2 ^ l.length := by
  induction l with
  | nil => simp [bitsToNat]
  | cons b bs ih =>
    rw [List.length_cons, pow_succ]
    cases b <;> simp [bitsToNat] <;> omega

/-- Bit `k` of the value of a bit list is the `k`-th entry of the list
(`false` beyond the end). -/
theorem bitsToNat_testBit (l : List Bool) (k : ℕ) :
    (bitsToNat l).testBit k = l.getD k false := by
  induction l generalizing k with
  | nil => simp [bitsToNat, Nat.zero_testBit]
  | cons b bs ih =>
    cases k with
    | zero =>
      rw [bitsToNat, Nat.testBit_zero]
      cases b <;> simp [Nat.add_mul_mod_self_left]
    | succ k =>
      rw [bitsToNat, Nat.testBit_succ]
      have hdiv : ((if b then 1 else 0) + 2 * bitsToNat bs) / 2 = bitsToNat bs := by
        rw [Nat.add_mul_div_left _ _ (by omega : (0:ℕ) < 2)]
        cases b <;> simp
      rw [hdiv, ih]
      simp

/-- The routing index is a valid slot: `find_index_c pos c < 2 ^ D`. -/
theorem find_index_c_lt {D : ℕ} (pos c : Pos D) : find_index_c pos c < 2 ^ D := by
  have h := bitsToNat_lt_two_pow ((List.finRange D).map fun i => decide (c i < pos i))
  simpa [find_index_c] using h

/-- Bit `i` of the routing index is set iff `pos[i] > c[i]`. -/
theorem find_index_c_testBit {D : ℕ} (pos c : Pos D) (i : Fin D) :
    (find_index_c pos c).testBit i = decide (c i < pos i) := by
  rw [find_index_c, bitsToNat_testBit]
  have hlen : (i : ℕ) < ((List.finRange D).map fun i => decide (c i < pos i)).length := by
    simp [i.isLt]
  rw [List.getD_eq_getElem _ _ hlen]
  simp [List.getElem_finRange, Fin.cast]

/-- Bits at positions `≥ D` of the routing index are clear. -/
theorem find_index_c_testBit_ge {D : ℕ} (pos c : Pos D) (k : ℕ) (h : D ≤ k) :
    (find_index_c pos c).testBit k = false := by
  rw [find_index_c, bitsToNat_testBit]
  have hlen : ((List.finRange D).map fun i => decide (c i < pos i)).length ≤ k := by
    simpa using h
  simp [List.getD_eq_getElem?_getD, List.getElem?_eq_none hlen]

/-- The node-level routing index is a valid slot. -/
theorem find_index_lt {D : ℕ} {α : Type} (pos : Pos D) (n : Node D α) :
    find_index pos n < 2 ^ D := find_index_c_lt pos n.center

/-- The created child center (`find_center`) coincides with the geometric
center of the sub-cell selected by the routing index. -/
theorem find_center_eq {D : ℕ} {α : Type} (bs pos : Pos D) (n : Node D α) :
    find_center bs pos n = geom_center bs n.center n.depth (find_index pos n) := by
  funext i
  rw [find_center, geom_center, find_index, find_index_c_testBit]
  by_cases h : n.center i < pos i <;> simp [h]

/-- Reading back the child slot just written (`childs[index]` after
assignment). -/
theorem Node.child_withChild_self {D : ℕ} {α : Type} (n : Node D α) (j : ℕ) (c : Node D α)
    (hj : j < n.childs.length) : (n.withChild j c).child j = some c := by
  rw [Node.withChild, Node.child, Node.childs_mk]
  rw [List.getD_eq_getElem _ _ (by simpa using hj)]
  simp [List.getElem_set_self]

/-- Writing one child slot leaves the others unchanged. -/
theorem Node.child_withChild_ne {D : ℕ} {α : Type} (n : Node D α) (j j' : ℕ) (c : Node D α)
    (h : j ≠ j') : (n.withChild j c).child j' = n.child j' := by
  rw [Node.withChild, Node.child, Node.child, Node.childs_mk]
  simp [List.getD_eq_getElem?_getD, List.getElem?_set_ne h]

@[simp] theorem Node.withChild_center {D : ℕ} {α : Type} (n : Node D α) (j : ℕ)
    (c : Node D α) : (n.withChild j c).center = n.center := by
  rw [Node.withChild]; simp

@[simp] theorem Node.withChild_data {D : ℕ} {α : Type} (n : Node D α) (j : ℕ)
    (c : Node D α) : (n.withChild j c).data = n.data := by
  rw [Node.withChild]; simp

@[simp] theorem Node.withChild_depth {D : ℕ} {α : Type} (n : Node D α) (j : ℕ)
    (c : Node D α) : (n.withChild j c).depth = n.depth := by
  rw [Node.withChild]; simp

@[simp] theorem Node.withChild_length {D : ℕ} {α : Type} (n : Node D α) (j : ℕ)
    (c : Node D α) : (n.withChild j c).childs.length = n.childs.length := by
  rw [Node.withChild]; simp

/-- Every slot of a freshly created node is null. -/
theorem Node.child_replicate {D : ℕ} {α : Type} (c0 : Pos D) (d : α) (k : ℕ) (j : ℕ) :
    (Node.mk c0 d k (List.replicate (2 ^ D) (none : Option (Node D α)))).child j = none := by
  rw [Node.child, Node.childs_mk]
  rcases lt_or_le j (2 ^ D) with h | h
  · rw [List.getD_eq_getElem _ _ (by simpa using h)]; simp
  · have hl : (List.replicate (2 ^ D) (none : Option (Node D α))).length ≤ j := by simpa using h
    simp [List.getD_eq_getElem?_getD, List.getElem?_eq_none hl]

/-- The guard return of the recursive insert: at `depth + 1 = max_depth`
the node is returned untouched. -/
theorem insert_node_stop {D : ℕ} {α : Type} (u : α → α → α) (bs : Pos D) (md fuel : ℕ)
    (n : Node D α) (pos : Pos D) (v : α) (h : n.depth + 1 = md) :
    insert_node u bs md fuel n pos v = some n := by
  cases fuel with
  | zero => rw [insert_node, if_pos h]
  | succ f => rw [insert_node, if_pos h]

/-- With exhausted fuel and the guard not taken, the modelled recursion has
not terminated. -/
theorem insert_node_zero_fuel {D : ℕ} {α : Type} (u : α → α → α) (bs : Pos D) (md : ℕ)
    (n : Node D α) (pos : Pos D) (v : α) (h : n.depth + 1 ≠ md) :
    insert_node u bs md 0 n pos v = none := by
  rw [insert_node, if_neg h]

/-- One unfolding of the recursive insert below the guard. -/
theorem insert_node_succ {D : ℕ} {α : Type} (u : α → α → α) (bs : Pos D) (md f : ℕ)
    (n : Node D α) (pos : Pos D) (v : α) (h : n.depth + 1 ≠ md) :
    insert_node u bs md (f + 1) n pos v =
      (insert_node u bs md f (ins_child u bs n pos v) pos v).map
        fun r => n.withChild (find_index pos n) r := by
  rw [insert_node, if_neg h]

/-- A successful insertion leaves the entry node's own fields (center,
depth, data, slot count) unchanged: only child slots are rewritten. -/
theorem insert_node_preserves {D : ℕ} {α : Type} {u : α → α → α} {bs : Pos D} {md fuel : ℕ}
    {n r : Node D α} {pos : Pos D} {v : α} (h : insert_node u bs md fuel n pos v = some r) :
    r.center = n.center ∧ r.depth = n.depth ∧ r.data = n.data ∧
      r.childs.length = n.childs.length := by
  by_cases hg : n.depth + 1 = md
  · rw [insert_node_stop u bs md fuel n pos v hg] at h
    obtain rfl : n = r := by simpa using h
    exact ⟨rfl, rfl, rfl, rfl⟩
  · cases fuel with
    | zero => rw [insert_node_zero_fuel u bs md n pos v hg] at h; simp at h
    | succ f =>
      rw [insert_node_succ u bs md f n pos v hg] at h
      cases hrec : insert_node u bs md f (ins_child u bs n pos v) pos v with
      | none => rw [hrec] at h; simp at h
      | some rc =>
        rw [hrec] at h
        simp at h
        subst h
        simp

/-- With `max_depth = 0` the guard `depth + 1 == 0` is unreachable, so the
C++ insertion recursion never returns: no fuel suffices. -/
theorem insert_node_md_zero {D : ℕ} {α : Type} (u : α → α → α) (bs : Pos D)
    (pos : Pos D) (v : α) : ∀ (fuel : ℕ) (n : Node D α),
    insert_node u bs 0 fuel n pos v = none := by
  intro fuel
  induction fuel with
  | zero => intro n; exact insert_node_zero_fuel u bs 0 n pos v (by omega)
  | succ f ih =>
    intro n
    rw [insert_node_succ u bs 0 f n pos v (by omega), ih]
    rfl

/-- Slot count of a well-formed node. -/
theorem WF.length {D : ℕ} {α : Type} {bs : Pos D} {md : ℕ} {n : Node D α}
    (h : WF bs md n) : n.childs.length = 2 ^ D := by
  cases h with | intro n hlen hleaf hdep hcen hch => exact hlen

/-- A well-formed node at the depth limit has no children. -/
theorem WF.leaf {D : ℕ} {α : Type} {bs : Pos D} {md : ℕ} {n : Node D α}
    (h : WF bs md n) (hd : md ≤ n.depth + 1) (j : ℕ) : n.child j = none := by
  cases h with | intro n hlen hleaf hdep hcen hch => exact hleaf hd j

/-- Depth, center and recursive well-formedness of a present child. -/
theorem WF.child_spec {D : ℕ} {α : Type} {bs : Pos D} {md : ℕ} {n : Node D α}
    (h : WF bs md n) {j : ℕ} {c : Node D α} (hc : n.child j = some c) :
    c.depth = n.depth + 1 ∧ c.center = geom_center bs n.center n.depth j ∧ WF bs md c := by
  cases h with | intro n hlen hleaf hdep hcen hch => exact ⟨hdep j c hc, hcen j c hc, hch j c hc⟩

/-- A freshly created node (all child slots null) is well-formed. -/
theorem WF_fresh {D : ℕ} {α : Type} (bs : Pos D) (md : ℕ) (c0 : Pos D) (d : α) (k : ℕ) :
    WF bs md (Node.mk c0 d k (List.replicate (2 ^ D) (none : Option (Node D α)))) := by
  refine WF.intro _ (by simp) (fun _ j => Node.child_replicate c0 d k j) ?_ ?_ ?_ <;>
    · intro j c hc
      rw [Node.child_replicate] at hc
      simp at hc

/-- Well-formedness ignores the data payload. -/
theorem WF_set_data {D : ℕ} {α : Type} {bs : Pos D} {md : ℕ} {c0 : Node D α}
    (h : WF bs md c0) (d : α) : WF bs md (Node.mk c0.center d c0.depth c0.childs) := by
  have hchild : ∀ j, (Node.mk c0.center d c0.depth c0.childs).child j = c0.child j := by
    intro j
    rw [Node.child, Node.child, Node.childs_mk]
  refine WF.intro _ (by simpa using h.length) ?_ ?_ ?_ ?_
  · intro hd j
    rw [hchild]
    exact h.leaf (by simpa using hd) j
  · intro j c hc
    rw [hchild] at hc
    simpa using (h.child_spec hc).1
  · intro j c hc
    rw [hchild] at hc
    simpa using (h.child_spec hc).2.1
  · intro j c hc
    rw [hchild] at hc
    exact (h.child_spec hc).2.2

/-- The stepped-into child is one level deeper, centered on its sub-cell,
and well-formed. -/
theorem ins_child_spec {D : ℕ} {α : Type} (u : α → α → α) (bs : Pos D) {md : ℕ}
    {n : Node D α} (pos : Pos D) (v : α) (hwf : WF bs md n) :
    (ins_child u bs n pos v).depth = n.depth + 1 ∧
    (ins_child u bs n pos v).center = geom_center bs n.center n.depth (find_index pos n) ∧
    WF bs md (ins_child u bs n pos v) := by
  rw [ins_child]
  cases hc : n.child (find_index pos n) with
  | none =>
    refine ⟨by simp, ?_, WF_fresh bs md _ v _⟩
    simp [find_center_eq]
  | some c0 =>
    obtain ⟨hd, hcen, hwfc⟩ := hwf.child_spec hc
    exact ⟨by simpa using hd, by simpa using hcen, WF_set_data hwfc _⟩

/-- Fuel sufficiency: from a well-formed node strictly above the depth
limit, fuel covering the remaining levels makes the insertion return. -/
theorem insert_node_some {D : ℕ} {α : Type} (u : α → α → α) (bs : Pos D) (md : ℕ)
    (pos : Pos D) (v : α) : ∀ (fuel : ℕ) (n : Node D α), WF bs md n →
    n.depth + 1 ≤ md → md ≤ n.depth + 1 + fuel →
    ∃ r, insert_node u bs md fuel n pos v = some r := by
  intro fuel
  induction fuel with
  | zero =>
    intro n _ h1 h2
    exact ⟨n, insert_node_stop u bs md 0 n pos v (by omega)⟩
  | succ f ih =>
    intro n hwf h1 h2
    by_cases hg : n.depth + 1 = md
    · exact ⟨n, insert_node_stop u bs md (f + 1) n pos v hg⟩
    · obtain ⟨hd, _, hwfc⟩ := ins_child_spec u bs pos v hwf
      obtain ⟨rc, hrc⟩ := ih (ins_child u bs n pos v) hwfc (by rw [hd]; omega) (by rw [hd]; omega)
      refine ⟨n.withChild (find_index pos n) rc, ?_⟩
      rw [insert_node_succ u bs md f n pos v hg, hrc]
      rfl

/-- A successful insertion preserves well-formedness. -/
theorem insert_node_wf {D : ℕ} {α : Type} (u : α → α → α) (bs : Pos D) (md : ℕ)
    (pos : Pos D) (v : α) : ∀ (fuel : ℕ) (n r : Node D α), WF bs md n →
    n.depth + 1 ≤ md → insert_node u bs md fuel n pos v = some r → WF bs md r := by
  intro fuel
  induction fuel with
  | zero =>
    intro n r hwf hdle h
    by_cases hg : n.depth + 1 = md
    · rw [insert_node_stop u bs md 0 n pos v hg] at h
      obtain rfl : n = r := by simpa using h
      exact hwf
    · rw [insert_node_zero_fuel u bs md n pos v hg] at h; simp at h
  | succ f ih =>
    intro n r hwf hdle h
    by_cases hg : n.depth + 1 = md
    · rw [insert_node_stop u bs md (f + 1) n pos v hg] at h
      obtain rfl : n = r := by simpa using h
      exact hwf
    · rw [insert_node_succ u bs md f n pos v hg] at h
      cases hrec : insert_node u bs md f (ins_child u bs n pos v) pos v with
      | none => rw [hrec] at h; simp at h
      | some rc =>
        rw [hrec] at h
        simp at h
        subst h
        obtain ⟨hd, hcen, hwfc⟩ := ins_child_spec u bs pos v hwf
        have hwfrc : WF bs md rc := ih (ins_child u bs n pos v) rc hwfc (by rw [hd]; omega) hrec
        obtain ⟨hpc, hpd, _, hplen⟩ := insert_node_preserves hrec
        have hjlt : find_index pos n < 2 ^ D := find_index_lt pos n
        refine WF.intro _ (by simp [hwf.length]) ?_ ?_ ?_ ?_
        · intro hdd
          simp only [Node.withChild_depth] at hdd
          exact absurd (le_antisymm hdle hdd) hg
        · intro j c hc
          by_cases hj : find_index pos n = j
          · subst hj
            rw [Node.child_withChild_self n _ rc (by rw [hwf.length]; exact hjlt)] at hc
            obtain rfl : rc = c := by simpa using hc
            simp only [Node.withChild_depth]
            rw [hpd, hd]
          · rw [Node.child_withChild_ne n _ j rc hj] at hc
            have h1 := (hwf.child_spec hc).1
            simpa using h1
        · intro j c hc
          by_cases hj : find_index pos n = j
          · subst hj
            rw [Node.child_withChild_self n _ rc (by rw [hwf.length]; exact hjlt)] at hc
            obtain rfl : rc = c := by simpa using hc
            simp only [Node.withChild_center, Node.withChild_depth]
            rw [hpc, hcen]
          · rw [Node.child_withChild_ne n _ j rc hj] at hc
            have h2 := (hwf.child_spec hc).2.1
            simpa using h2
        · intro j c hc
          by_cases hj : find_index pos n = j
          · subst hj
            rw [Node.child_withChild_self n _ rc (by rw [hwf.length]; exact hjlt)] at hc
            obtain rfl : rc = c := by simpa using hc
            exact hwfrc
          · rw [Node.child_withChild_ne n _ j rc hj] at hc
            exact (hwf.child_spec hc).2.2

/-- A node on the descent spine is reachable. -/
theorem path_node_reach {D : ℕ} {α : Type} (pos : Pos D) :
    ∀ (k : ℕ) (n m : Node D α), path_node pos k n = some m → Reach n m := by
  intro k
  induction k with
  | zero =>
    intro n m h
    rw [path_node] at h
    injection h with h
    subst h
    exact Reach.refl n
  | succ k ih =>
    intro n m h
    rw [path_node] at h
    cases hc : n.child (find_index pos n) with
    | none => rw [hc] at h; simp at h
    | some c =>
      rw [hc] at h
      simp only [Option.some_bind] at h
      exact Reach.step (find_index pos n) hc (ih c m h)

/-- On a well-formed subtree, the `k`-th spine node sits exactly `k` levels
deeper and is itself well-formed. -/
theorem path_node_wf {D : ℕ} {α : Type} {bs : Pos D} {md : ℕ} (pos : Pos D) :
    ∀ (k : ℕ) (n m : Node D α), WF bs md n → path_node pos k n = some m →
    m.depth = n.depth + k ∧ WF bs md m := by
  intro k
  induction k with
  | zero =>
    intro n m hwf h
    rw [path_node] at h
    injection h with h
    subst h
    exact ⟨by omega, hwf⟩
  | succ k ih =>
    intro n m hwf h
    rw [path_node] at h
    cases hc : n.child (find_index pos n) with
    | none => rw [hc] at h; simp at h
    | some c =>
      rw [hc] at h
      simp only [Option.some_bind] at h
      obtain ⟨hd, hcen, hwfc⟩ := hwf.child_spec hc
      obtain ⟨hdm, hwfm⟩ := ih c m hwfc h
      exact ⟨by omega, hwfm⟩

/-- The descent spine only looks at the center and the child slots, never
at the data payload. -/
theorem path_node_congr {D : ℕ} {α : Type} (pos : Pos D) (k : ℕ) (hk : 1 ≤ k)
    (a b : Node D α) (hc : a.center = b.center) (hch : a.childs = b.childs) :
    path_node pos k a = path_node pos k b := by
  cases k with
  | zero => omega
  | succ k =>
    rw [path_node, path_node, find_index, find_index, hc, Node.child, Node.child, hch]

/-- Reachable nodes of a well-formed subtree are well-formed. -/
theorem reach_wf {D : ℕ} {α : Type} {bs : Pos D} {md : ℕ} {n m : Node D α}
    (hwf : WF bs md n) (h : Reach n m) : WF bs md m := by
  induction h with
  | refl _ => exact hwf
  | step j hc hrest ih => exact ih ((reach_wf_aux hc hwf))
where
  reach_wf_aux {D : ℕ} {α : Type} {bs : Pos D} {md : ℕ} {n c : Node D α} {j : ℕ}
      (hc : n.child j = some c) (hwf : WF bs md n) : WF bs md c := (hwf.child_spec hc).2.2

/-- Depth bound along reachability: on a well-formed subtree strictly above
the depth limit, every reachable node stays strictly above it too. -/
theorem reach_depth_le {D : ℕ} {α : Type} {bs : Pos D} {md : ℕ} {n m : Node D α}
    (h : Reach n m) : WF bs md n → n.depth + 1 ≤ md → m.depth + 1 ≤ md := by
  induction h with
  | refl _ => exact fun _ hd => hd
  | step j hc hrest ih =>
    intro hwf hd
    obtain ⟨hcd, _, hwfc⟩ := hwf.child_spec hc
    have hlt : ¬ md ≤ _ := fun hle => by
      have := hwf.leaf hle j
      rw [this] at hc
      exact Option.noConfusion hc
    exact ih hwfc (by omega)

/-- A node visited while traversing a child slot list comes from one of the
present children. -/
theorem mem_traverse_childs {D : ℕ} {α : Type} :
    ∀ (cs : List (Option (Node D α))) (m : Node D α), m ∈ traverse_childs cs →
    ∃ c, some c ∈ cs ∧ m ∈ traverse_tree c := by
  intro cs
  induction cs with
  | nil => intro m hm; rw [traverse_childs] at hm; simp at hm
  | cons oc rest ih =>
    intro m hm
    cases oc with
    | none =>
      rw [traverse_childs] at hm
      obtain ⟨c, h1, h2⟩ := ih m hm
      exact ⟨c, List.mem_cons_of_mem _ h1, h2⟩
    | some c =>
      rw [traverse_childs] at hm
      rcases List.mem_append.mp hm with hm | hm
      · exact ⟨c, List.mem_cons_self _ _, hm⟩
      · obtain ⟨c', h1, h2⟩ := ih m hm
        exact ⟨c', List.mem_cons_of_mem _ h1, h2⟩

/-- Every node the pre-order traversal visits is reachable by child
pointers; bounded by `sizeOf` to mirror the traversal's recursion. -/
theorem mem_traverse_reach_aux {D : ℕ} {α : Type} :
    ∀ (N : ℕ) (n : Node D α), sizeOf n ≤ N → ∀ m, m ∈ traverse_tree n → Reach n m := by
  intro N
  induction N with
  | zero =>
    intro n hs
    exfalso
    cases n with
    | mk c d k cs =>
      simp only [Node.mk.sizeOf_spec] at hs
      omega
  | succ N ih =>
    intro n hs m hm
    rw [traverse_tree_eq] at hm
    rcases List.mem_cons.mp hm with rfl | hm
    · exact Reach.refl m
    · obtain ⟨c, hcmem, hmc⟩ := mem_traverse_childs n.childs m hm
      obtain ⟨j, hj, hcj⟩ := List.mem_iff_getElem.mp hcmem
      have hchild : n.child j = some c := by
        rw [Node.child, List.getD_eq_getElem _ _ hj, hcj]
      have hsz : sizeOf c < sizeOf n := Node.sizeOf_child hchild
      exact Reach.step j hchild (ih c (by omega) m hmc)

/-- Traversal (the node list `visual` walks) visits only reachable nodes. -/
theorem mem_traverse_reach {D : ℕ} {α : Type} {n m : Node D α}
    (h : m ∈ traverse_tree n) : Reach n m :=
  mem_traverse_reach_aux (sizeOf n) n le_rfl m h

/-- The root created by the public constructor is well-formed. -/
theorem make_root_wf {D : ℕ} {α : Type} (pmin pmax : Pos D) (md : ℕ) (d0 : α) :
    WF (Boundary.size ⟨pmin, pmax⟩) md (Octree.make pmin pmax md d0).root :=
  WF_fresh _ _ _ _ _

/-- One public insertion preserves the tree's configuration, the root's
own fields, and well-formedness. -/
theorem insert_facts {D : ℕ} {α : Type} (u : α → α → α) (t : Octree D α) (pos : Pos D)
    (v : α) (hd0 : t.root.depth = 0) (hwf : WF t.boundary.size t.max_depth t.root) :
    (t.insert u pos v).boundary = t.boundary ∧
    (t.insert u pos v).max_depth = t.max_depth ∧
    (t.insert u pos v).root.depth = 0 ∧
    (t.insert u pos v).root.center = t.root.center ∧
    (t.insert u pos v).root.data = t.root.data ∧
    WF t.boundary.size t.max_depth (t.insert u pos v).root := by
  rw [Octree.insert]
  by_cases hin : t.boundary.is_in pos = true
  · rw [if_pos hin]
    cases hrec : insert_node u t.boundary.size t.max_depth t.max_depth t.root pos v with
    | none =>
      simp only [Option.getD_none]
      refine ⟨?_, ?_, hd0, ?_, ?_, hwf⟩ <;> trivial
    | some r =>
      simp only [Option.getD_some]
      obtain ⟨hc, hdep, hdata, hlen⟩ := insert_node_preserves hrec
      refine ⟨by trivial, by trivial, by rw [hdep, hd0], hc, hdata, ?_⟩
      rcases Nat.eq_zero_or_pos t.max_depth with hmd | hmd
      · rw [hmd] at hrec
        rw [insert_node_md_zero] at hrec
        exact Option.noConfusion hrec
      · exact insert_node_wf u _ _ pos v _ t.root r hwf (by omega) hrec
  · rw [if_neg hin]
    refine ⟨?_, ?_, hd0, ?_, ?_, hwf⟩ <;> trivial

/-- Folding a list of insertions preserves the tree's configuration, the
root's fields, and well-formedness. -/
theorem foldl_insert_facts {D : ℕ} {α : Type} (u : α → α → α) :
    ∀ (l : List (Pos D × α)) (t : Octree D α), t.root.depth = 0 →
    WF t.boundary.size t.max_depth t.root →
    (l.foldl (fun t pv => t.insert u pv.1 pv.2) t).boundary = t.boundary ∧
    (l.foldl (fun t pv => t.insert u pv.1 pv.2) t).max_depth = t.max_depth ∧
    (l.foldl (fun t pv => t.insert u pv.1 pv.2) t).root.depth = 0 ∧
    (l.foldl (fun t pv => t.insert u pv.1 pv.2) t).root.center = t.root.center ∧
    (l.foldl (fun t pv => t.insert u pv.1 pv.2) t).root.data = t.root.data ∧
    WF t.boundary.size t.max_depth (l.foldl (fun t pv => t.insert u pv.1 pv.2) t).root := by
  intro l
  induction l with
  | nil => intro t h0 hwf; exact ⟨rfl, rfl, h0, rfl, rfl, hwf⟩
  | cons pv rest ih =>
    intro t h0 hwf
    simp only [List.foldl_cons]
    obtain ⟨hb, hm, hd, hcen, hdata, hwf'⟩ := insert_facts u t pv.1 pv.2 h0 hwf
    obtain ⟨hb', hm', hd', hcen', hdata', hwf''⟩ :=
      ih (t.insert u pv.1 pv.2) hd (by rw [hb, hm]; exact hwf')
    refine ⟨by rw [hb', hb], by rw [hm', hm], hd', by rw [hcen', hcen],
      by rw [hdata', hdata], ?_⟩
    rw [hb, hm] at hwf''
    exact hwf''

/-- Configuration, root fields and well-formedness of any built tree. -/
theorem build_facts {D : ℕ} {α : Type} (u : α → α → α) (pmin pmax : Pos D) (md : ℕ)
    (d0 : α) (l : List (Pos D × α)) :
    (build u pmin pmax md d0 l).boundary = ⟨pmin, pmax⟩ ∧
    (build u pmin pmax md d0 l).max_depth = md ∧
    (build u pmin pmax md d0 l).root.depth = 0 ∧
    (build u pmin pmax md d0 l).root.center = Boundary.center ⟨pmin, pmax⟩ ∧
    (build u pmin pmax md d0 l).root.data = d0 ∧
    WF (Boundary.size ⟨pmin, pmax⟩) md (build u pmin pmax md d0 l).root := by
  have h := foldl_insert_facts u l (Octree.make pmin pmax md d0) rfl
    (make_root_wf pmin pmax md d0)
  exact h

/-- Unfolding of `find` at a node whose depth matches the target. -/
theorem find_node_eq_stop {D : ℕ} {α : Type} (pos : Pos D) (d : ℕ) (n : Node D α)
    (h : n.depth = d) : find_node pos d n = n := by
  rw [find_node, if_pos h]

/-- Unfolding of `find` when the routed child is absent: the current node
(deepest existing ancestor) is returned. -/
theorem find_node_eq_none {D : ℕ} {α : Type} (pos : Pos D) (d : ℕ) (n : Node D α)
    (h : n.depth ≠ d) (hc : n.child (find_index pos n) = none) : find_node pos d n = n := by
  rw [find_node, if_neg h]
  split
  · rfl
  · rename_i c hc2
    rw [hc] at hc2
    exact Option.noConfusion hc2

/-- Unfolding of `find` when the routed child is present: recurse into it. -/
theorem find_node_eq_some {D : ℕ} {α : Type} (pos : Pos D) (d : ℕ) (n c : Node D α)
    (h : n.depth ≠ d) (hc : n.child (find_index pos n) = some c) :
    find_node pos d n = find_node pos d c := by
  rw [find_node, if_neg h]
  split
  · rename_i hc2
    rw [hc] at hc2
    exact Option.noConfusion hc2
  · rename_i c2 hc2
    rw [hc] at hc2
    injection hc2 with hc2
    rw [hc2]

/-- Full characterization of `find` on a well-formed subtree: the result is
the node reached after some `k ≤ d - depth` descent steps, and either it has
exactly the target depth or its routed child is absent. -/
theorem find_node_spec {D : ℕ} {α : Type} {bs : Pos D} {md : ℕ} (pos : Pos D) (d : ℕ) :
    ∀ (g : ℕ) (n : Node D α), WF bs md n → d = n.depth + g →
    ∃ k, k ≤ g ∧ path_node pos k n = some (find_node pos d n) ∧
      (find_node pos d n).depth = n.depth + k ∧
      ((find_node pos d n).depth = d ∨
        (find_node pos d n).child (find_index pos (find_node pos d n)) = none) := by
  intro g
  induction g with
  | zero =>
    intro n hwf hd
    have hnd : n.depth = d := by omega
    rw [find_node_eq_stop pos d n hnd]
    exact ⟨0, le_rfl, rfl, by omega, Or.inl hnd⟩
  | succ g ih =>
    intro n hwf hd
    have hnd : n.depth ≠ d := by omega
    cases hc : n.child (find_index pos n) with
    | none =>
      rw [find_node_eq_none pos d n hnd hc]
      exact ⟨0, by omega, rfl, by omega, Or.inr hc⟩
    | some c =>
      obtain ⟨hcd, _, hwfc⟩ := hwf.child_spec hc
      obtain ⟨k, hk, hpath, hdep, hdisj⟩ := ih c hwfc (by omega)
      rw [find_node_eq_some pos d n c hnd hc]
      refine ⟨k + 1, by omega, ?_, by omega, hdisj⟩
      rw [path_node, hc]
      simpa using hpath

/-- If the spine reaches the target depth exactly, `find` returns that
node. -/
theorem find_node_exact {D : ℕ} {α : Type} {bs : Pos D} {md : ℕ} (pos : Pos D) (d : ℕ) :
    ∀ (g : ℕ) (n m : Node D α), WF bs md n → d = n.depth + g →
    path_node pos g n = some m → find_node pos d n = m := by
  intro g
  induction g with
  | zero =>
    intro n m hwf hd hp
    rw [path_node] at hp
    injection hp with hp
    subst hp
    exact find_node_eq_stop pos d n (by omega)
  | succ g ih =>
    intro n m hwf hd hp
    have hnd : n.depth ≠ d := by omega
    rw [path_node] at hp
    cases hc : n.child (find_index pos n) with
    | none => rw [hc] at hp; simp at hp
    | some c =>
      rw [hc] at hp
      simp only [Option.some_bind] at hp
      obtain ⟨hcd, _, hwfc⟩ := hwf.child_spec hc
      rw [find_node_eq_some pos d n c hnd hc]
      exact ih c m hwfc (by omega) hp

/-- One descent step is exactly the routed child slot. -/
theorem path_node_one {D : ℕ} {α : Type} (pos : Pos D) (n : Node D α) :
    path_node pos 1 n = n.child (find_index pos n) := by
  rw [path_node]
  cases n.child (find_index pos n) <;> rfl

/-- Core aggregation lemma: inserting `(p, v)` into a node aligned with the
geometric descent path of `p0` (where `p` routes like `p0` along that path)
succeeds, preserves the node's own fields, and turns the spine below the
node from "every level carries `s`" (or from the empty spine with `s = 0`)
into "every level carries `v + s`". -/
theorem insert_chain {D : ℕ} (bs c0 p0 p : Pos D) (md : ℕ) (v : ℚ)
    (hsp : ∀ k, k + 2 ≤ md →
      find_index_c p (pcenter bs c0 p0 k) = find_index_c p0 (pcenter bs c0 p0 k)) :
    ∀ (fuel : ℕ) (n : Node D ℚ) (s : ℚ),
    n.center = pcenter bs c0 p0 n.depth →
    n.childs.length = 2 ^ D →
    n.depth + 1 ≤ md → md ≤ n.depth + 1 + fuel →
    ((∀ k, 1 ≤ k → n.depth + k + 1 ≤ md →
        ∃ m, path_node p0 k n = some m ∧ m.depth = n.depth + k ∧
          m.center = pcenter bs c0 p0 (n.depth + k) ∧ m.childs.length = 2 ^ D ∧
          m.data = s) ∨
      ((∀ k, 1 ≤ k → path_node p0 k n = none) ∧ s = 0)) →
    ∃ r, insert_node qupdate bs md fuel n p v = some r ∧ r.center = n.center ∧
      r.depth = n.depth ∧ r.data = n.data ∧ r.childs.length = 2 ^ D ∧
      (∀ k, 1 ≤ k → n.depth + k + 1 ≤ md →
        ∃ m, path_node p0 k r = some m ∧ m.depth = n.depth + k ∧
          m.center = pcenter bs c0 p0 (n.depth + k) ∧ m.childs.length = 2 ^ D ∧
          m.data = v + s) := by
  intro fuel
  induction fuel with
  | zero =>
    intro n s hcen hlen hd1 hd2 hch
    have hg : n.depth + 1 = md := by omega
    refine ⟨n, insert_node_stop qupdate bs md 0 n p v hg, rfl, rfl, rfl, hlen, ?_⟩
    intro k hk hkd
    omega
  | succ f ih =>
    intro n s hcen hlen hd1 hd2 hch
    by_cases hg : n.depth + 1 = md
    · refine ⟨n, insert_node_stop qupdate bs md (f + 1) n p v hg, rfl, rfl, rfl, hlen, ?_⟩
      intro k hk hkd
      omega
    · have hd3 : n.depth + 2 ≤ md := by omega
      have hidx : find_index p n = find_index p0 n := by
        rw [find_index, find_index, hcen]
        exact hsp n.depth (by omega)
      rcases hch with hfull | ⟨hemp, hs0⟩
      · -- the spine below `n` already exists and carries `s` at every level
        obtain ⟨m1, hp1, hm1d, hm1c, hm1len, hm1data⟩ := hfull 1 le_rfl (by omega)
        rw [path_node_one] at hp1
        have hcp : n.child (find_index p n) = some m1 := by rw [hidx]; exact hp1
        have hins : ins_child qupdate bs n p v =
            Node.mk m1.center (qupdate m1.data v) m1.depth m1.childs := by
          rw [ins_child, hcp]
        have hcd : (ins_child qupdate bs n p v).depth = n.depth + 1 := by
          rw [hins, Node.depth_mk, hm1d]
        have hccen : (ins_child qupdate bs n p v).center =
            pcenter bs c0 p0 ((ins_child qupdate bs n p v).depth) := by
          rw [hins, Node.center_mk, Node.depth_mk, hm1d, hm1c]
        have hclen : (ins_child qupdate bs n p v).childs.length = 2 ^ D := by
          rw [hins, Node.childs_mk, hm1len]
        have hpath_c : ∀ k, 1 ≤ k →
            path_node p0 k (ins_child qupdate bs n p v) = path_node p0 k m1 := by
          intro k hk
          refine path_node_congr p0 k hk _ _ ?_ ?_
          · rw [hins, Node.center_mk]
          · rw [hins, Node.childs_mk]
        have hchain_c : ∀ k, 1 ≤ k → (ins_child qupdate bs n p v).depth + k + 1 ≤ md →
            ∃ m, path_node p0 k (ins_child qupdate bs n p v) = some m ∧
              m.depth = (ins_child qupdate bs n p v).depth + k ∧
              m.center = pcenter bs c0 p0 ((ins_child qupdate bs n p v).depth + k) ∧
              m.childs.length = 2 ^ D ∧ m.data = s := by
          intro k hk hkd
          rw [hcd] at hkd
          rw [hcd, show n.depth + 1 + k = n.depth + (k + 1) from by omega]
          obtain ⟨m, hp, hmd, hmc, hmlen, hmdata⟩ := hfull (k + 1) (by omega) (by omega)
          rw [path_node, hp1] at hp
          simp only [Option.some_bind] at hp
          refine ⟨m, ?_, hmd, hmc, hmlen, hmdata⟩
          rw [hpath_c k hk]
          exact hp
        obtain ⟨rc, hrc, hrcc, hrcd, hrcdata, hrclen, hrchain⟩ :=
          ih (ins_child qupdate bs n p v) s hccen hclen (by omega) (by omega)
            (Or.inl hchain_c)
        refine ⟨n.withChild (find_index p n) rc, ?_, by simp, by simp, by simp,
          by simp [hlen], ?_⟩
        · rw [insert_node_succ qupdate bs md f n p v hg, hrc]
          rfl
        · intro k hk hkd
          have hjlt : find_index p n < 2 ^ D := find_index_lt p n
          have hchild_r : (n.withChild (find_index p n) rc).child (find_index p0 n) =
              some rc := by
            rw [← hidx]
            exact Node.child_withChild_self n _ rc (by rw [hlen]; exact hjlt)
          have hfir : find_index p0 (n.withChild (find_index p n) rc) =
              find_index p0 n := by
            rw [find_index, Node.withChild_center, find_index]
          cases k with
          | zero => omega
          | succ k =>
            rw [path_node, hfir, hchild_r]
            simp only [Option.some_bind]
            cases k with
            | zero =>
              refine ⟨rc, rfl, by omega, ?_, hrclen, ?_⟩
              · rw [hrcc, hccen, hcd]
              · rw [hrcdata, hins, Node.data_mk, qupdate, hm1data]
            | succ k =>
              obtain ⟨m, hp, hmd, hmc, hmlen, hmdata⟩ :=
                hrchain (k + 1) (by omega) (by rw [hcd]; omega)
              have hix : (ins_child qupdate bs n p v).depth + (k + 1) =
                  n.depth + (k + 1 + 1) := by rw [hcd]; omega
              refine ⟨m, hp, by omega, by rw [← hix]; exact hmc, hmlen, hmdata⟩
      · -- the spine below `n` is empty: the insertion creates it
        subst hs0
        have hc1 : n.child (find_index p0 n) = none := by
          have h1 := hemp 1 le_rfl
          rw [path_node_one] at h1
          exact h1
        have hcp : n.child (find_index p n) = none := by rw [hidx]; exact hc1
        have hins : ins_child qupdate bs n p v =
            Node.mk (find_center bs p n) v (n.depth + 1)
              (List.replicate (2 ^ D) none) := by
          rw [ins_child, hcp]
        have hcc : (find_center bs p n : Pos D) = pcenter bs c0 p0 (n.depth + 1) := by
          rw [find_center_eq, pcenter]
          rw [hcen, find_index, hcen, hsp n.depth (by omega)]
        have hcd : (ins_child qupdate bs n p v).depth = n.depth + 1 := by
          rw [hins, Node.depth_mk]
        have hccen : (ins_child qupdate bs n p v).center =
            pcenter bs c0 p0 ((ins_child qupdate bs n p v).depth) := by
          rw [hins, Node.center_mk, Node.depth_mk, hcc]
        have hclen : (ins_child qupdate bs n p v).childs.length = 2 ^ D := by
          rw [hins, Node.childs_mk, List.length_replicate]
        have hemp_c : ∀ k, 1 ≤ k →
            path_node p0 k (ins_child qupdate bs n p v) = none := by
          intro k hk
          cases k with
          | zero => omega
          | succ k =>
            rw [path_node, hins, Node.child_replicate]
            rfl
        obtain ⟨rc, hrc, hrcc, hrcd, hrcdata, hrclen, hrchain⟩ :=
          ih (ins_child qupdate bs n p v) 0 hccen hclen (by rw [hcd]; omega)
            (by rw [hcd]; omega) (Or.inr ⟨hemp_c, rfl⟩)
        refine ⟨n.withChild (find_index p n) rc, ?_, by simp, by simp, by simp,
          by simp [hlen], ?_⟩
        · rw [insert_node_succ qupdate bs md f n p v hg, hrc]
          rfl
        · intro k hk hkd
          have hjlt : find_index p n < 2 ^ D := find_index_lt p n
          have hchild_r : (n.withChild (find_index p n) rc).child (find_index p0 n) =
              some rc := by
            rw [← hidx]
            exact Node.child_withChild_self n _ rc (by rw [hlen]; exact hjlt)
          have hfir : find_index p0 (n.withChild (find_index p n) rc) =
              find_index p0 n := by
            rw [find_index, Node.withChild_center, find_index]
          cases k with
          | zero => omega
          | succ k =>
            rw [path_node, hfir, hchild_r]
            simp only [Option.some_bind]
            cases k with
            | zero =>
              refine ⟨rc, rfl, by omega, ?_, hrclen, ?_⟩
              · rw [hrcc, hccen, hcd]
              · rw [hrcdata, hins, Node.data_mk]
                ring
            | succ k =>
              obtain ⟨m, hp, hmd, hmc, hmlen, hmdata⟩ :=
                hrchain (k + 1) (by omega) (by rw [hcd]; omega)
              have hix : (ins_child qupdate bs n p v).depth + (k + 1) =
                  n.depth + (k + 1 + 1) := by rw [hcd]; omega
              refine ⟨m, hp, by omega, by rw [← hix]; exact hmc, hmlen, hmdata⟩

/-- One in-bounds insertion whose position routes like `p0` turns a spine
carrying `s` (or no spine yet, with `s = 0`) into a spine carrying `v + s`,
leaving the root's own fields at their constructor values. -/
theorem insert_step_chain {D : ℕ} (pmin pmax p0 : Pos D) (md : ℕ) (hmd : 1 ≤ md)
    (t : Octree D ℚ) (p : Pos D) (v s : ℚ)
    (hin : (Boundary.mk pmin pmax).is_in p = true)
    (hsp : ∀ k, k + 2 ≤ md →
      find_index_c p
          (pcenter (Boundary.size ⟨pmin, pmax⟩) (Boundary.center ⟨pmin, pmax⟩) p0 k) =
        find_index_c p0
          (pcenter (Boundary.size ⟨pmin, pmax⟩) (Boundary.center ⟨pmin, pmax⟩) p0 k))
    (hb : t.boundary = ⟨pmin, pmax⟩) (hm : t.max_depth = md) (h0 : t.root.depth = 0)
    (hcc : t.root.center = Boundary.center ⟨pmin, pmax⟩) (hdta : t.root.data = 0)
    (hln : t.root.childs.length = 2 ^ D)
    (hch : spine_full (Boundary.size ⟨pmin, pmax⟩) (Boundary.center ⟨pmin, pmax⟩) p0 md
        t.root s ∨
      ((∀ k, 1 ≤ k → path_node p0 k t.root = none) ∧ s = 0)) :
    (t.insert qupdate p v).boundary = ⟨pmin, pmax⟩ ∧
    (t.insert qupdate p v).max_depth = md ∧
    (t.insert qupdate p v).root.depth = 0 ∧
    (t.insert qupdate p v).root.center = Boundary.center ⟨pmin, pmax⟩ ∧
    (t.insert qupdate p v).root.data = 0 ∧
    (t.insert qupdate p v).root.childs.length = 2 ^ D ∧
    spine_full (Boundary.size ⟨pmin, pmax⟩) (Boundary.center ⟨pmin, pmax⟩) p0 md
      (t.insert qupdate p v).root (v + s) := by
  have hcen0 : t.root.center =
      pcenter (Boundary.size ⟨pmin, pmax⟩) (Boundary.center ⟨pmin, pmax⟩) p0
        t.root.depth := by
    rw [h0, hcc, pcenter]
  have hch' : (∀ k, 1 ≤ k → t.root.depth + k + 1 ≤ md →
      ∃ m, path_node p0 k t.root = some m ∧ m.depth = t.root.depth + k ∧
        m.center = pcenter (Boundary.size ⟨pmin, pmax⟩) (Boundary.center ⟨pmin, pmax⟩)
          p0 (t.root.depth + k) ∧
        m.childs.length = 2 ^ D ∧ m.data = s) ∨
      ((∀ k, 1 ≤ k → path_node p0 k t.root = none) ∧ s = 0) := by
    rcases hch with hfull | hempty
    · left
      intro k hk hkd
      obtain ⟨m, h1, h2, h3, h4, h5⟩ := hfull k hk (by omega)
      rw [show t.root.depth + k = k from by omega]
      exact ⟨m, h1, h2, h3, h4, h5⟩
    · right
      exact hempty
  obtain ⟨r, hr, hrc, hrd, hrdata, hrlen, hrchain⟩ :=
    insert_chain (Boundary.size ⟨pmin, pmax⟩) (Boundary.center ⟨pmin, pmax⟩) p0 p md v hsp
      md t.root s hcen0 hln (by omega) (by omega) hch'
  have hins_eq : t.insert qupdate p v = { t with root := r } := by
    rw [Octree.insert, hb, if_pos hin, hm, hr]
    rfl
  rw [hins_eq]
  refine ⟨hb, hm, by simpa [hrd] using h0, by rw [show ({ t with root := r } : Octree D ℚ).root = r from rfl, hrc, hcc],
    by rw [show ({ t with root := r } : Octree D ℚ).root = r from rfl, hrdata, hdta], by simpa using hrlen, ?_⟩
  intro k hk hkd
  obtain ⟨m, h1, h2, h3, h4, h5⟩ := hrchain k hk (by omega)
  refine ⟨m, h1, by omega, ?_, h4, h5⟩
  rw [show t.root.depth + k = k from by omega] at h3
  exact h3

/-- Folding further same-path in-bounds insertions over a tree with a full
spine accumulates all their values onto every spine level. -/
theorem foldl_step_chain {D : ℕ} (pmin pmax p0 : Pos D) (md : ℕ) (hmd : 1 ≤ md) :
    ∀ (rest : List (Pos D × ℚ)) (t : Octree D ℚ) (s : ℚ),
    (∀ pv ∈ rest, (Boundary.mk pmin pmax).is_in pv.1 = true) →
    (∀ pv ∈ rest, ∀ k, k + 2 ≤ md →
      find_index_c pv.1
          (pcenter (Boundary.size ⟨pmin, pmax⟩) (Boundary.center ⟨pmin, pmax⟩) p0 k) =
        find_index_c p0
          (pcenter (Boundary.size ⟨pmin, pmax⟩) (Boundary.center ⟨pmin, pmax⟩) p0 k)) →
    t.boundary = ⟨pmin, pmax⟩ → t.max_depth = md → t.root.depth = 0 →
    t.root.center = Boundary.center ⟨pmin, pmax⟩ → t.root.data = 0 →
    t.root.childs.length = 2 ^ D →
    spine_full (Boundary.size ⟨pmin, pmax⟩) (Boundary.center ⟨pmin, pmax⟩) p0 md
      t.root s →
    (rest.foldl (fun t pv => t.insert qupdate pv.1 pv.2) t).root.data = 0 ∧
    spine_full (Boundary.size ⟨pmin, pmax⟩) (Boundary.center ⟨pmin, pmax⟩) p0 md
      (rest.foldl (fun t pv => t.insert qupdate pv.1 pv.2) t).root
      (rest.foldl (fun s pv => pv.2 + s) s) := by
  intro rest
  induction rest with
  | nil =>
    intro t s _ _ hb hm h0 hcc hdta hln hch
    exact ⟨hdta, hch⟩
  | cons pv rest ih =>
    intro t s hin hsp hb hm h0 hcc hdta hln hch
    simp only [List.foldl_cons]
    obtain ⟨hb', hm', h0', hcc', hdta', hln', hch'⟩ :=
      insert_step_chain pmin pmax p0 md hmd t pv.1 pv.2 s
        (hin pv (List.mem_cons_self pv rest))
        (hsp pv (List.mem_cons_self pv rest))
        hb hm h0 hcc hdta hln (Or.inl hch)
    exact ih (t.insert qupdate pv.1 pv.2) (pv.2 + s)
      (fun q hq => hin q (List.mem_cons_of_mem pv hq))
      (fun q hq => hsp q (List.mem_cons_of_mem pv hq))
      hb' hm' h0' hcc' hdta' hln' hch'

/-- Left fold of the default aggregation over a value list is the sum of
the values plus the start. -/
theorem foldl_qupdate_eq_sum {D : ℕ} (l : List (Pos D × ℚ)) :
    ∀ s : ℚ, l.foldl (fun s pv => pv.2 + s) s = (l.map Prod.snd).sum + s := by
  induction l with
  | nil => intro s; simp
  | cons pv rest ih =>
    intro s
    simp only [List.foldl_cons, List.map_cons, List.sum_cons]
    rw [ih]
    ring

/-- Extensionality for boundary boxes. -/
theorem Boundary.ext_components {D : ℕ} (a b : Boundary D)
    (h1 : ∀ i, a.min i = b.min i) (h2 : ∀ i, a.max i = b.max i) : a = b := by
  cases a with
  | mk amin amax =>
    cases b with
    | mk bmin bmax =>
      have e1 : amin = bmin := funext h1
      have e2 : amax = bmax := funext h2
      rw [e1, e2]

@[simp] theorem Boundary.min_mk {D : ℕ} (f g : Pos D) : (Boundary.mk f g).min = f := rfl

@[simp] theorem Boundary.max_mk {D : ℕ} (f g : Pos D) : (Boundary.mk f g).max = g := rfl

/-- Membership in a boundary box as componentwise inequalities. -/
theorem is_in_iff {D : ℕ} (b : Boundary D) (p : Pos D) :
    b.is_in p = true ↔ ∀ i : Fin D, b.min i ≤ p i ∧ p i ≤ b.max i := by
  rw [Boundary.is_in, decide_eq_true_eq]
  apply forall_congr'
  intro i
  rw [not_or, not_lt, not_lt]

/-- A node's half-extent is twice the half-extent of its children. -/
theorem half_size_split {D : ℕ} (bs : Pos D) (d : ℕ) (i : Fin D) :
    bs i / 2 ^ (d + 1) = 2 * (bs i / 2 ^ (d + 2)) := by
  have h2 : ((2 : ℚ) ^ (d + 1)) ≠ 0 := by positivity
  rw [show d + 2 = (d + 1) + 1 from rfl, pow_succ]
  field_simp
  ring

/-- The corners of the sub-cell at slot `j`: on each axis the cell is the
upper or lower half of the parent's extent according to bit `i` of `j`. -/
theorem sub_region_bounds {D : ℕ} (bs c : Pos D) (d j : ℕ) (i : Fin D) :
    ((sub_region bs c d j).min i =
      if j.testBit i then c i else c i - 2 * (bs i / 2 ^ (d + 2))) ∧
    ((sub_region bs c d j).max i =
      if j.testBit i then c i + 2 * (bs i / 2 ^ (d + 2)) else c i) := by
  rcases Bool.eq_false_or_eq_true (j.testBit i) with hbit | hbit <;>
      simp [sub_region, geom_center, hbit] <;>
    ring

/-- Every sub-cell is contained in its parent's cell (componentwise),
provided the boundary size is nonnegative. -/
theorem sub_region_subset {D : ℕ} (bs c : Pos D) (d j : ℕ)
    (hbs : ∀ i, 0 ≤ bs i) (p : Pos D)
    (hp : (sub_region bs c d j).is_in p = true) :
    (Boundary.mk (fun i => c i - bs i / 2 ^ (d + 1))
      (fun i => c i + bs i / 2 ^ (d + 1))).is_in p = true := by
  rw [is_in_iff] at hp ⊢
  intro i
  have hh : (0 : ℚ) ≤ bs i / 2 ^ (d + 2) :=
    div_nonneg (hbs i) (by positivity)
  obtain ⟨h1, h2⟩ := hp i
  obtain ⟨e1, e2⟩ := sub_region_bounds bs c d j i
  rw [e1] at h1
  rw [e2] at h2
  simp only [Boundary.min_mk, Boundary.max_mk]
  rw [half_size_split bs d i]
  constructor
  · rcases Bool.eq_false_or_eq_true (j.testBit i) with hbit | hbit <;>
        rw [hbit] at h1 <;> simp at h1 <;> linarith
  · rcases Bool.eq_false_or_eq_true (j.testBit i) with hbit | hbit <;>
        rw [hbit] at h2 <;> simp at h2 <;> linarith

/-- Cover: a point of the parent's cell lies in the sub-cell selected by
its own routing index relative to the parent center. -/
theorem sub_region_cover {D : ℕ} (bs c : Pos D) (d : ℕ) (p : Pos D)
    (hp : (Boundary.mk (fun i => c i - bs i / 2 ^ (d + 1))
      (fun i => c i + bs i / 2 ^ (d + 1))).is_in p = true) :
    (sub_region bs c d (find_index_c p c)).is_in p = true := by
  rw [is_in_iff] at hp ⊢
  intro i
  obtain ⟨h1, h2⟩ := hp i
  simp only [Boundary.min_mk, Boundary.max_mk] at h1 h2
  rw [half_size_split bs d i] at h1 h2
  obtain ⟨e1, e2⟩ := sub_region_bounds bs c d (find_index_c p c) i
  rw [e1, e2, find_index_c_testBit]
  by_cases hlt : c i < p i
  · simp only [decide_eq_true_eq, if_pos hlt]
    exact ⟨le_of_lt hlt, h2⟩
  · simp only [decide_eq_true_eq, if_neg hlt]
    exact ⟨h1, le_of_not_lt hlt⟩

/-- Distinct slot indices below `2 ^ D` differ in some bit below `D`. -/
theorem slot_bit_ne {D : ℕ} {j1 j2 : ℕ} (h1 : j1 < 2 ^ D) (h2 : j2 < 2 ^ D)
    (hne : j1 ≠ j2) : ∃ i : Fin D, j1.testBit i ≠ j2.testBit i := by
  by_contra hall
  push_neg at hall
  apply hne
  apply Nat.eq_of_testBit_eq
  intro k
  by_cases hk : k < D
  · exact hall ⟨k, hk⟩
  · have hk' : D ≤ k := by omega
    have b1 : j1.testBit k = false :=
      Nat.testBit_lt_two_pow (lt_of_lt_of_le h1 (Nat.pow_le_pow_right (by omega) hk'))
    have b2 : j2.testBit k = false :=
      Nat.testBit_lt_two_pow (lt_of_lt_of_le h2 (Nat.pow_le_pow_right (by omega) hk'))
    rw [b1, b2]

/-- Interiors of distinct sub-cells are disjoint: they lie on opposite
sides of the center hyperplane of some axis. -/
theorem sub_region_disjoint {D : ℕ} (bs c : Pos D) (d j1 j2 : ℕ)
    (h1 : j1 < 2 ^ D) (h2 : j2 < 2 ^ D) (hne : j1 ≠ j2) (p : Pos D) :
    ¬((sub_region bs c d j1).strict_in p ∧ (sub_region bs c d j2).strict_in p) := by
  rintro ⟨hs1, hs2⟩
  obtain ⟨i, hbit⟩ := slot_bit_ne h1 h2 hne
  obtain ⟨a1, a2⟩ := hs1 i
  obtain ⟨b1, b2⟩ := hs2 i
  obtain ⟨e11, e12⟩ := sub_region_bounds bs c d j1 i
  obtain ⟨e21, e22⟩ := sub_region_bounds bs c d j2 i
  rw [e11] at a1
  rw [e12] at a2
  rw [e21] at b1
  rw [e22] at b2
  cases hb1 : j1.testBit i <;> cases hb2 : j2.testBit i
  · rw [hb1] at hbit; rw [hb2] at hbit; exact hbit rfl
  · rw [hb1] at a2; rw [hb2] at b1
    simp only [if_false, if_true] at a2 b1
    exact absurd (lt_trans a2 b1) (lt_irrefl _)
  · rw [hb1] at a1; rw [hb2] at b2
    simp only [if_false, if_true] at a1 b2
    exact absurd (lt_trans b2 a1) (lt_irrefl _)
  · rw [hb1] at hbit; rw [hb2] at hbit; exact hbit rfl

/-- C1: for every sequence of insertions of values `v1..vn` at positions
that all map to the same leaf quadrant path (all in-bounds, each routing
like the reference position `p0` at every geometric center of `p0`'s path),
every node on that path below the root ends with data equal to the
aggregation fold `combine(combine(…combine(default, v1)…), vn)` for the
default sum aggregator `qupdate` — equal to the sum of the `vi` — while the
root's data remains at its default-initialized value `0`; the hypotheses
are closed under prefixes of the insertion list, so the root stays at its
default throughout the sequence. -/
theorem C1_aggregation_on_shared_path {D : ℕ} (pmin pmax p0 : Pos D) (md : ℕ)
    (l : List (Pos D × ℚ)) (hmd : 1 ≤ md) (hne : l ≠ [])
    (hin : ∀ pv ∈ l, (Boundary.mk pmin pmax).is_in pv.1 = true)
    (hsp : ∀ pv ∈ l, ∀ k, k + 2 ≤ md →
      find_index_c pv.1
          (pcenter (Boundary.size ⟨pmin, pmax⟩) (Boundary.center ⟨pmin, pmax⟩) p0 k) =
        find_index_c p0
          (pcenter (Boundary.size ⟨pmin, pmax⟩) (Boundary.center ⟨pmin, pmax⟩) p0 k)) :
    (build qupdate pmin pmax md 0 l).root.data = 0 ∧
    ∀ k, 1 ≤ k → k + 1 ≤ md →
      ∃ m, path_node p0 k (build qupdate pmin pmax md 0 l).root = some m ∧
        m.depth = k ∧ m.data = l.foldl (fun s pv => qupdate s pv.2) 0 ∧
        m.data = (l.map Prod.snd).sum := by
  cases l with
  | nil => exact absurd rfl hne
  | cons pv rest =>
    rw [build]
    simp only [List.foldl_cons]
    have hmake_empty : ∀ k, 1 ≤ k →
        path_node p0 k (Octree.make pmin pmax md (0 : ℚ)).root = none := by
      intro k hk
      cases k with
      | zero => omega
      | succ k =>
        rw [path_node]
        rw [show (Octree.make pmin pmax md (0 : ℚ)).root =
          Node.mk (Boundary.center ⟨pmin, pmax⟩) 0 0 (List.replicate (2 ^ D) none)
          from rfl]
        rw [Node.child_replicate]
        rfl
    obtain ⟨hb1, hm1, h01, hc1, hd1, hl1, hch1⟩ :=
      insert_step_chain pmin pmax p0 md hmd (Octree.make pmin pmax md 0) pv.1 pv.2 0
        (hin pv (List.mem_cons_self pv rest)) (hsp pv (List.mem_cons_self pv rest))
        rfl rfl rfl rfl rfl (by simp [Octree.make]) (Or.inr ⟨hmake_empty, rfl⟩)
    obtain ⟨hdata, hch⟩ :=
      foldl_step_chain pmin pmax p0 md hmd rest
        ((Octree.make pmin pmax md 0).insert qupdate pv.1 pv.2) (pv.2 + 0)
        (fun q hq => hin q (List.mem_cons_of_mem pv hq))
        (fun q hq => hsp q (List.mem_cons_of_mem pv hq))
        hb1 hm1 h01 hc1 hd1 hl1 hch1
    refine ⟨hdata, ?_⟩
    intro k hk hkd
    obtain ⟨m, h1, h2, h3, h4, h5⟩ := hch k hk hkd
    refine ⟨m, h1, h2, ?_, ?_⟩
    · rw [h5]
      rfl
    · rw [h5, foldl_qupdate_eq_sum]
      simp only [List.map_cons, List.sum_cons]
      ring

/-- Witness for C1: boundary `(0,0)-(100,100)`, `max_depth = 2`, inserting
values 1 and 2 at the same position `(25,25)`; the depth-1 node on the path
carries the fold `2 + (1 + 0) = 3`, the sum of the values, and the root
stays at `0`. -/
theorem C1_aggregation_on_shared_path_witness :
    ((1 : ℕ) ≤ 2 ∧ c1_list ≠ [] ∧
      (∀ pv ∈ c1_list, (Boundary.mk cZero cHundred).is_in pv.1 = true)) ∧
    ((build qupdate cZero cHundred 2 0 c1_list).root.data = 0 ∧
      ∀ k, 1 ≤ k → k + 1 ≤ 2 →
        ∃ m, path_node cP25 k (build qupdate cZero cHundred 2 0 c1_list).root = some m ∧
          m.depth = k ∧ m.data = c1_list.foldl (fun s pv => qupdate s pv.2) 0 ∧
          m.data = (c1_list.map Prod.snd).sum) := by
  have hin : ∀ pv ∈ c1_list, (Boundary.mk cZero cHundred).is_in pv.1 = true := by
    decide
  have hsp : ∀ pv ∈ c1_list, ∀ k, k + 2 ≤ 2 →
      find_index_c pv.1
          (pcenter (Boundary.size ⟨cZero, cHundred⟩) (Boundary.center ⟨cZero, cHundred⟩)
            cP25 k) =
        find_index_c cP25
          (pcenter (Boundary.size ⟨cZero, cHundred⟩) (Boundary.center ⟨cZero, cHundred⟩)
            cP25 k) := by
    intro pv hpv k hk
    have hfst : pv.1 = cP25 := by
      rcases List.mem_cons.mp hpv with rfl | hpv
      · rfl
      · rcases List.mem_cons.mp hpv with rfl | hpv
        · rfl
        · simp at hpv
    rw [hfst]
  exact ⟨⟨by omega, by simp [c1_list], hin⟩,
    C1_aggregation_on_shared_path cZero cHundred cP25 2 c1_list (by omega)
      (by simp [c1_list]) hin hsp⟩

/-- C2: inserting at a position with some coordinate strictly below the
boundary minimum or strictly above the boundary maximum is a silent no-op:
the call returns normally (no error channel exists), and the resulting
tree is the argument tree itself — no node is created and the root and
every existing node keep their center, data, depth and children. -/
theorem C2_out_of_bounds_noop {D : ℕ} {α : Type} (u : α → α → α) (t : Octree D α)
    (pos : Pos D) (v : α)
    (h : ∃ i : Fin D, pos i < t.boundary.min i ∨ t.boundary.max i < pos i) :
    t.insert u pos v = t := by
  have hin : t.boundary.is_in pos = false := by
    rw [Boundary.is_in, decide_eq_false_iff_not]
    intro hall
    obtain ⟨i, hi⟩ := h
    exact hall i hi
  rw [Octree.insert, hin]
  simp

/-- Witness for C2: inserting `(150,150)` into a fresh tree over
`(0,0)-(100,100)` leaves the tree unchanged. -/
theorem C2_out_of_bounds_noop_witness :
    (∃ i : Fin 2, cP150 i < (Octree.make cZero cHundred 4 (0 : ℚ)).boundary.min i ∨
      (Octree.make cZero cHundred 4 (0 : ℚ)).boundary.max i < cP150 i) ∧
    (Octree.make cZero cHundred 4 (0 : ℚ)).insert qupdate cP150 5 =
      Octree.make cZero cHundred 4 0 :=
  ⟨⟨0, Or.inr (by decide)⟩,
    C2_out_of_bounds_noop qupdate (Octree.make cZero cHundred 4 0) cP150 5
      ⟨0, Or.inr (by decide)⟩⟩

/-- C3: on every built tree, for every position (including out-of-bounds
positions, which `find` does not check) and every depth `d`, `find(pos, d)`
returns a (non-null, since the function totally produces a node) node
obtained by descending the quadrant-index path from the root: it is the
spine node after some `k ≤ d` steps with depth exactly `k`, and either its
depth is exactly `d` or its routed child is absent (deepest existing
ancestor, at minimum the root on a never-populated tree); if the spine has
a node at exactly depth `d` it is returned; `find(pos)` equals
`find(pos, max_depth)`; and the returned node is reachable in the
unmodified tree — `find` creates and mutates nothing. -/
theorem C3_find_resolution {D : ℕ} {α : Type} (u : α → α → α) (pmin pmax : Pos D)
    (md : ℕ) (d0 : α) (l : List (Pos D × α)) (t : Octree D α)
    (ht : t = build u pmin pmax md d0 l) (pos : Pos D) (d : ℕ) :
    (∃ k, k ≤ d ∧ path_node pos k t.root = some (t.find_at pos d) ∧
      (t.find_at pos d).depth = k ∧
      ((t.find_at pos d).depth = d ∨
        (t.find_at pos d).child (find_index pos (t.find_at pos d)) = none)) ∧
    (∀ m, path_node pos d t.root = some m → t.find_at pos d = m) ∧
    Reach t.root (t.find_at pos d) ∧
    t.find pos = t.find_at pos t.max_depth := by
  subst ht
  obtain ⟨hb, hm, h0, hc, hd, hwf⟩ := build_facts u pmin pmax md d0 l
  simp only [Octree.find_at, Octree.find]
  refine ⟨?_, ?_, ?_, trivial⟩
  · obtain ⟨k, hk, hpath, hdep, hdisj⟩ :=
      find_node_spec pos d d (build u pmin pmax md d0 l).root hwf (by omega)
    exact ⟨k, hk, hpath, by omega, hdisj⟩
  · intro m hp
    exact find_node_exact pos d d _ m hwf (by omega) hp
  · obtain ⟨k, _, hpath, _, _⟩ :=
      find_node_spec pos d d (build u pmin pmax md d0 l).root hwf (by omega)
    exact path_node_reach pos k _ _ hpath

/-- Witness for C3 on a concrete tree with one insertion, looked up at
depth 1. -/
theorem C3_find_resolution_witness :
    ((∃ k, k ≤ 1 ∧ path_node cP25 k c3_tree.root = some (c3_tree.find_at cP25 1) ∧
      (c3_tree.find_at cP25 1).depth = k ∧
      ((c3_tree.find_at cP25 1).depth = 1 ∨
        (c3_tree.find_at cP25 1).child (find_index cP25 (c3_tree.find_at cP25 1)) =
          none)) ∧
    (∀ m, path_node cP25 1 c3_tree.root = some m → c3_tree.find_at cP25 1 = m) ∧
    Reach c3_tree.root (c3_tree.find_at cP25 1) ∧
    c3_tree.find cP25 = c3_tree.find_at cP25 c3_tree.max_depth) :=
  C3_find_resolution qupdate cZero cHundred 2 0 [(cP25, 1)] c3_tree rfl cP25 1

/-- C4: on a tree built with `max_depth ≥ 1` (the constructor's documented
input constraint), every reachable node has depth at most `max_depth`
(indeed at most `max_depth - 1`), every present child sits exactly one
level below its parent, and a node at the stopping level
`depth + 1 = max_depth` has no children — insertion never descends past
it. -/
theorem C4_depth_bound {D : ℕ} {α : Type} (u : α → α → α) (pmin pmax : Pos D)
    (md : ℕ) (d0 : α) (l : List (Pos D × α)) (t : Octree D α)
    (hmd : 1 ≤ md) (ht : t = build u pmin pmax md d0 l) :
    ∀ m, Reach t.root m →
      m.depth ≤ md ∧
      (∀ j c, m.child j = some c → c.depth = m.depth + 1) ∧
      (m.depth + 1 = md → ∀ j, m.child j = none) := by
  subst ht
  obtain ⟨hb, hm, h0, hc, hd, hwf⟩ := build_facts u pmin pmax md d0 l
  intro m hre
  have hwfm := reach_wf hwf hre
  have hdep := reach_depth_le hre hwf (by omega)
  exact ⟨by omega, fun j c hc2 => (hwfm.child_spec hc2).1,
    fun hstop j => hwfm.leaf (by omega) j⟩

/-- Witness for C4 on a concrete tree, checked at the root. -/
theorem C4_depth_bound_witness :
    (1 : ℕ) ≤ 2 ∧
    (c3_tree.root.depth ≤ 2 ∧
      (∀ j c, c3_tree.root.child j = some c → c.depth = c3_tree.root.depth + 1) ∧
      (c3_tree.root.depth + 1 = 2 → ∀ j, c3_tree.root.child j = none)) :=
  ⟨by omega,
    C4_depth_bound qupdate cZero cHundred 2 0 [(cP25, 1)] c3_tree (by omega) rfl
      c3_tree.root (Reach.refl c3_tree.root)⟩

/-- C5: the routing index of a position at a node is an integer in
`[0, 2^D)` whose bit `i` is set iff `pos[i] > center[i]`; in particular a
coordinate lying exactly on the center hyperplane leaves bit `i` unset, so
such a point is deterministically routed to the lower-half child; and both
`find` and `insert` route through this same `find_index` value — their
unfoldings below their respective guards inspect exactly the slot
`find_index pos n`. -/
theorem C5_quadrant_index {D : ℕ} {α : Type} (pos : Pos D) (n : Node D α) :
    find_index pos n < 2 ^ D ∧
    (∀ i : Fin D, (find_index pos n).testBit i = decide (n.center i < pos i)) ∧
    (∀ i : Fin D, pos i = n.center i → (find_index pos n).testBit i = false) ∧
    (∀ d : ℕ, n.depth ≠ d →
      find_node pos d n = (n.child (find_index pos n)).elim n (find_node pos d)) ∧
    (∀ (u : α → α → α) (bs : Pos D) (md f : ℕ) (v : α), n.depth + 1 ≠ md →
      insert_node u bs md (f + 1) n pos v =
        (insert_node u bs md f (ins_child u bs n pos v) pos v).map
          fun r => n.withChild (find_index pos n) r) := by
  refine ⟨find_index_lt pos n, fun i => find_index_c_testBit pos n.center i, ?_, ?_, ?_⟩
  · intro i hp
    rw [find_index, find_index_c_testBit, hp]
    simp
  · intro d hd
    cases hc : n.child (find_index pos n) with
    | none => rw [find_node_eq_none pos d n hd hc]; rfl
    | some c => rw [find_node_eq_some pos d n c hd hc]; rfl
  · intro u bs md f v hg
    exact insert_node_succ u bs md f n pos v hg

/-- Witness for C5 at a node centered at `(50,50)`: the index of `(25,25)`
is in range with bit 0 matching the comparison, and the point `(50,50)`
lying exactly on the center gets bit 0 unset (lower-half tie-break). -/
theorem C5_quadrant_index_witness :
    find_index cP25 cNode < 2 ^ 2 ∧
    (find_index cP25 cNode).testBit (0 : Fin 2) = decide (cNode.center 0 < cP25 0) ∧
    (find_index cP50 cNode).testBit (0 : Fin 2) = false :=
  ⟨(C5_quadrant_index cP25 cNode).1,
    (C5_quadrant_index cP25 cNode).2.1 0,
    (C5_quadrant_index cP50 cNode).2.2.1 0 rfl⟩

/-- C6 (amended): for every tree produced by the public constructor with
`max_depth ≥ 1` (the constructor accepts `max_depth = 0` unchecked, and
then an in-bounds insert never terminates — see the counterexample), every
call terminates with recursion depth bounded by `max_depth`: the insert
recursion returns within `max_depth` levels of fuel, the `find` descent
takes at most `max_depth` steps, and the `visual` traversal (like
`find_boundary`, which performs no recursion at all) visits only nodes
within the depth bound. -/
theorem C6_termination_depth_bounded {D : ℕ} {α : Type} (u : α → α → α)
    (pmin pmax : Pos D) (md : ℕ) (d0 : α) (l : List (Pos D × α)) (t : Octree D α)
    (hmd : 1 ≤ md) (ht : t = build u pmin pmax md d0 l) (pos : Pos D) (v : α) :
    (∃ r, insert_node u t.boundary.size t.max_depth t.max_depth t.root pos v = some r) ∧
    (∀ k m, path_node pos k t.root = some m → k + 1 ≤ md) ∧
    (∀ m, m ∈ t.visual → m.depth + 1 ≤ md) := by
  subst ht
  obtain ⟨hb, hm, h0, hc, hd, hwf⟩ := build_facts u pmin pmax md d0 l
  refine ⟨?_, ?_, ?_⟩
  · rw [hb, hm]
    exact insert_node_some u _ md pos v md _ hwf (by omega) (by omega)
  · intro k m hp
    obtain ⟨hdep, hwfm⟩ := path_node_wf pos k _ m hwf hp
    have hre := path_node_reach pos k _ m hp
    have hle := reach_depth_le hre hwf (by omega)
    omega
  · intro m hm2
    rw [Octree.visual] at hm2
    have hre := mem_traverse_reach hm2
    have hle := reach_depth_le hre hwf (by omega)
    omega

/-- Witness for C6 on a fresh tree with `max_depth = 1`. -/
theorem C6_termination_depth_bounded_witness :
    (1 : ℕ) ≤ 1 ∧
    ((∃ r, insert_node qupdate (build qupdate cZero cHundred 1 (0 : ℚ) []).boundary.size
        (build qupdate cZero cHundred 1 (0 : ℚ) []).max_depth
        (build qupdate cZero cHundred 1 (0 : ℚ) []).max_depth
        (build qupdate cZero cHundred 1 (0 : ℚ) []).root cP25 1 = some r) ∧
    (∀ k m, path_node cP25 k (build qupdate cZero cHundred 1 (0 : ℚ) []).root = some m →
      k + 1 ≤ 1) ∧
    (∀ m, m ∈ (build qupdate cZero cHundred 1 (0 : ℚ) []).visual → m.depth + 1 ≤ 1)) :=
  ⟨le_rfl,
    C6_termination_depth_bounded qupdate cZero cHundred 1 0 []
      (build qupdate cZero cHundred 1 0 []) le_rfl rfl cP25 1⟩

/-- Counterexample to C6 as stated: the public constructor accepts
`max_depth = 0`, the in-bounds position `(25,25)` passes the boundary
check, and then the recursive insert never reaches its stopping guard
`depth + 1 == max_depth` — no recursion fuel makes it return, i.e. the C++
call does not terminate. -/
theorem C6_counterexample :
    (Octree.make cZero cHundred 0 (0 : ℚ)).boundary.is_in cP25 = true ∧
    ¬ ∃ r, ∃ fuel, insert_node qupdate
        (Octree.make cZero cHundred 0 (0 : ℚ)).boundary.size 0 fuel
        (Octree.make cZero cHundred 0 (0 : ℚ)).root cP25 1 = some r := by
  constructor
  · decide
  · rintro ⟨r, fuel, h⟩
    rw [insert_node_md_zero] at h
    exact Option.noConfusion h

/-- C7: on every built tree with a well-ordered boundary, the root's
reconstructed region is exactly the tree boundary, and for every reachable
node: each present child's reconstructed region is exactly the sub-cell of
the slot it occupies; every child's region is contained in its parent's
region; the `2 ^ D` sub-cells of a node exactly tile its region — a point
is in the node's region iff it is in some sub-cell (no gap), and the
interiors of distinct sub-cells are disjoint (no overlap). -/
theorem C7_containment_and_tiling {D : ℕ} {α : Type} (u : α → α → α)
    (pmin pmax : Pos D) (md : ℕ) (d0 : α) (l : List (Pos D × α)) (t : Octree D α)
    (hbnd : ∀ i, pmin i ≤ pmax i) (ht : t = build u pmin pmax md d0 l) :
    t.find_boundary t.root = t.boundary ∧
    ∀ m, Reach t.root m →
      (∀ j c, m.child j = some c →
        t.find_boundary c = sub_region t.boundary.size m.center m.depth j) ∧
      (∀ j c, m.child j = some c → ∀ p : Pos D,
        (t.find_boundary c).is_in p = true → (t.find_boundary m).is_in p = true) ∧
      (∀ p : Pos D, (t.find_boundary m).is_in p = true ↔
        ∃ j, j < 2 ^ D ∧
          (sub_region t.boundary.size m.center m.depth j).is_in p = true) ∧
      (∀ j1 j2, j1 < 2 ^ D → j2 < 2 ^ D → j1 ≠ j2 → ∀ p : Pos D,
        ¬((sub_region t.boundary.size m.center m.depth j1).strict_in p ∧
          (sub_region t.boundary.size m.center m.depth j2).strict_in p)) := by
  subst ht
  obtain ⟨hb, hm, h0, hc, hd, hwf⟩ := build_facts u pmin pmax md d0 l
  have hbs : ∀ i, 0 ≤ (build u pmin pmax md d0 l).boundary.size i := by
    intro i
    rw [hb]
    simp only [Boundary.size, Boundary.max_mk, Boundary.min_mk]
    exact sub_nonneg.mpr (hbnd i)
  constructor
  · apply Boundary.ext_components
    · intro i
      simp only [Octree.find_boundary, Boundary.min_mk]
      rw [hc, h0, hb]
      simp only [Boundary.center, Boundary.size, Boundary.min_mk, Boundary.max_mk]
      ring
    · intro i
      simp only [Octree.find_boundary, Boundary.max_mk]
      rw [hc, h0, hb]
      simp only [Boundary.center, Boundary.size, Boundary.min_mk, Boundary.max_mk]
      ring
  · intro m hre
    have hwfm := reach_wf hwf hre
    have hsub : ∀ j c, m.child j = some c →
        (build u pmin pmax md d0 l).find_boundary c =
          sub_region (build u pmin pmax md d0 l).boundary.size m.center m.depth j := by
      intro j c hcj
      obtain ⟨hcd, hccen, _⟩ := hwfm.child_spec hcj
      apply Boundary.ext_components
      · intro i
        simp only [Octree.find_boundary, sub_region, Boundary.min_mk]
        rw [hb, hccen, hcd]
      · intro i
        simp only [Octree.find_boundary, sub_region, Boundary.max_mk]
        rw [hb, hccen, hcd]
    refine ⟨hsub, ?_, ?_, ?_⟩
    · intro j c hcj p hp
      rw [hsub j c hcj] at hp
      exact sub_region_subset _ m.center m.depth j hbs p hp
    · intro p
      constructor
      · intro hp
        exact ⟨find_index_c p m.center, find_index_c_lt p m.center,
          sub_region_cover _ m.center m.depth p hp⟩
      · rintro ⟨j, hj, hp⟩
        exact sub_region_subset _ m.center m.depth j hbs p hp
    · intro j1 j2 hj1 hj2 hne p
      exact sub_region_disjoint _ m.center m.depth j1 j2 hj1 hj2 hne p

/-- Witness for C7 on a concrete tree, with the tiling facts taken at the
root. -/
theorem C7_containment_and_tiling_witness :
    (∀ i : Fin 2, cZero i ≤ cHundred i) ∧
    (c3_tree.find_boundary c3_tree.root = c3_tree.boundary ∧
      ((∀ j c, c3_tree.root.child j = some c →
        c3_tree.find_boundary c =
          sub_region c3_tree.boundary.size c3_tree.root.center c3_tree.root.depth j) ∧
      (∀ j c, c3_tree.root.child j = some c → ∀ p : Pos 2,
        (c3_tree.find_boundary c).is_in p = true →
          (c3_tree.find_boundary c3_tree.root).is_in p = true) ∧
      (∀ p : Pos 2, (c3_tree.find_boundary c3_tree.root).is_in p = true ↔
        ∃ j, j < 2 ^ 2 ∧
          (sub_region c3_tree.boundary.size c3_tree.root.center c3_tree.root.depth
            j).is_in p = true) ∧
      (∀ j1 j2, j1 < 2 ^ 2 → j2 < 2 ^ 2 → j1 ≠ j2 → ∀ p : Pos 2,
        ¬((sub_region c3_tree.boundary.size c3_tree.root.center c3_tree.root.depth
            j1).strict_in p ∧
          (sub_region c3_tree.boundary.size c3_tree.root.center c3_tree.root.depth
            j2).strict_in p)))) :=
  ⟨by decide,
    (C7_containment_and_tiling qupdate cZero cHundred 2 0 [(cP25, 1)] c3_tree
      (by decide) rfl).1,
    (C7_containment_and_tiling qupdate cZero cHundred 2 0 [(cP25, 1)] c3_tree
      (by decide) rfl).2 c3_tree.root (Reach.refl c3_tree.root)⟩

/-- C8: `find_boundary` returns exactly the region with
`min = center - h` and `max = center + h` where
`h = boundary.size / 2^(depth+1)`; it is a pure function of the node's
center and depth and the tree's boundary size — any tree and node agreeing
on those produce the same region — it mutates neither the node nor the
tree (it is a function of them), and calling it twice on the same node
yields identical bounds. -/
theorem C8_find_boundary_pure {D : ℕ} {α : Type} (t : Octree D α) (n : Node D α) :
    ((t.find_boundary n).min = fun i => n.center i - t.boundary.size i / 2 ^ (n.depth + 1)) ∧
    ((t.find_boundary n).max = fun i => n.center i + t.boundary.size i / 2 ^ (n.depth + 1)) ∧
    t.find_boundary n = t.find_boundary n ∧
    (∀ (α2 : Type) (t2 : Octree D α2) (n2 : Node D α2),
      t2.boundary.size = t.boundary.size → n2.center = n.center → n2.depth = n.depth →
      t2.find_boundary n2 = t.find_boundary n) := by
  refine ⟨rfl, rfl, rfl, ?_⟩
  intro α2 t2 n2 hs hcn hdn
  rw [Octree.find_boundary, Octree.find_boundary, hs, hcn, hdn]

/-- Witness for C8: the purity clause applied to the same concrete tree
and node, hypotheses discharged by reflexivity. -/
theorem C8_find_boundary_pure_witness :
    (Octree.make cZero cHundred 4 (0 : ℚ)).find_boundary cNode =
      (Octree.make cZero cHundred 4 (0 : ℚ)).find_boundary cNode :=
  (C8_find_boundary_pure (Octree.make cZero cHundred 4 (0 : ℚ)) cNode).2.2.2
    ℚ (Octree.make cZero cHundred 4 (0 : ℚ)) cNode rfl rfl rfl
